import Mathlib

/-!
Shallow embedding of `solution.py` (a diagonal-Sudoku solver built from
constraint propagation plus depth-first search).

Cells are indexed 0..80 in row-major order, matching the order of the
Python box list `cross('ABCDEFGHI', '123456789')`.  A candidate string is
a `List Char`; a board is the 81-entry list of candidate strings; the
solver state bundles the board with the global `assignments` trace.
Recursion in `reduce_puzzle` and `search` is expressed with explicit fuel
(the Python loops terminate; fuel-stabilization lemmas below recover the
fuel-free behaviour), keeping every definition kernel-computable.
-/

open scoped List

set_option maxRecDepth 40000

abbrev Cell : Type := Fin 81

/-- The 81 boxes in row-major order (Python `_boxes`). -/
def _boxes : List Cell := List.finRange 81

/-- A board: candidate strings for all 81 boxes (Python `values` dict). -/
def Board : Type := { l : List (List Char) // l.length = 81 }

instance : DecidableEq Board :=
  inferInstanceAs (DecidableEq { l : List (List Char) // l.length = 81 })

def Board.get (v : Board) (c : Cell) : List Char :=
  v.val.get (Fin.cast v.property.symm c)

def Board.set (v : Board) (c : Cell) (x : List Char) : Board :=
  ⟨v.val.set c.val x, by rw [List.length_set]; exact v.property⟩

/-- Solver state: the candidate mapping plus the global `assignments` trace. -/
structure SState where
  values : Board
  assignments : List Board
deriving DecidableEq

/-- Python `assign_value`: no-op when the value is unchanged, otherwise
write the box and, when the new value is a single character, append a
snapshot of the updated board to the trace. -/
def assign_value (σ : SState) (box : Cell) (value : List Char) : SState :=
  if σ.values.get box = value then σ
  else
    let values2 := σ.values.set box value
    if value.length = 1 then { values := values2, assignments := σ.assignments ++ [values2] }
    else { values := values2, assignments := σ.assignments }

def cellOf (r c : Fin 9) : Cell :=
  ⟨9 * r.val + c.val, by have hr := r.isLt; have hc := c.isLt; omega⟩

def row_units : List (List Cell) :=
  (List.finRange 9).map (fun r => (List.finRange 9).map (fun c => cellOf r c))

def column_units : List (List Cell) :=
  (List.finRange 9).map (fun c => (List.finRange 9).map (fun r => cellOf r c))

def squareBands : List (List (Fin 9)) := [[0, 1, 2], [3, 4, 5], [6, 7, 8]]

def square_units : List (List Cell) :=
  (squareBands.map (fun rs => squareBands.map (fun cs =>
    (rs.map (fun r => cs.map (fun c => cellOf r c))).flatten))).flatten

def diagonal_units : List (List Cell) :=
  [(List.finRange 9).map (fun i => cellOf i i),
   (List.finRange 9).map (fun i => cellOf i i.rev)]

/-- The unit list as assembled at lines 40-42 of the source, parametrised by
the `_IS_DIAGONAL` flag. -/
def unitlistOf (isDiagonal : Bool) : List (List Cell) :=
  row_units ++ column_units ++ square_units ++ (if isDiagonal then diagonal_units else [])

/-- Python `_IS_DIAGONAL = True`. -/
def IS_DIAGONAL : Bool := true

def _unitlist : List (List Cell) := unitlistOf IS_DIAGONAL

/-- Python `_peers[s]`: every box sharing a unit with `s`, except `s`.
(The Python value is a `set`; here it is the deduplicated list in first
occurrence order — eliminate's removals commute, so order is immaterial.) -/
def _peers (s : Cell) : List Cell :=
  (((_unitlist.filter (fun u => decide (s ∈ u))).flatten).filter (fun p => decide (p ≠ s))).dedup

/-- Python `str.replace(pat, '')` on lists of characters: delete the
leftmost non-overlapping occurrences of `pat`; the empty pattern leaves the
string unchanged.  Fuel (`s.length` suffices) keeps the recursion
structural. -/
def replFuel : Nat → List Char → List Char → List Char
  | 0, s, _ => s
  | n + 1, s, pat =>
    match s with
    | [] => []
    | c :: rest =>
      if pat = [] then c :: rest
      else if pat.isPrefixOf (c :: rest) then replFuel n ((c :: rest).drop pat.length) pat
      else c :: replFuel n rest pat

def strReplace (s pat : List Char) : List Char := replFuel s.length s pat

def digitsL : List Char := "123456789".toList

/-- Python `eliminate`: for every box solved in the input board, remove its
(live-read) value from each of its peers. -/
def eliminate (σ0 : SState) : SState :=
  (_boxes.filter (fun b => decide ((σ0.values.get b).length = 1))).foldl
    (fun σ b =>
      let digit := σ.values.get b
      (_peers b).foldl (fun σ2 p => assign_value σ2 p (strReplace (σ2.values.get p) digit)) σ)
    σ0

/-- The (i, j) index pairs scanned by the nested loops of `naked_twins`:
each list element paired with every later one, in loop order. -/
def pairsOf : List Cell → List (Cell × Cell)
  | [] => []
  | b :: rest => (rest.map (fun j => (b, j))) ++ pairsOf rest

/-- Insert-or-overwrite on an association list, mirroring Python dict
assignment: an existing key keeps its position and takes the new value. -/
def upsertPair : List (List Char × (Cell × Cell)) → List Char → Cell × Cell →
    List (List Char × (Cell × Cell))
  | [], k, pr => [(k, pr)]
  | (k0, p0) :: rest, k, pr =>
    if k0 = k then (k, pr) :: rest else (k0, p0) :: upsertPair rest k pr

/-- The `naked_twins` dict of one unit: for each pair of twin boxes with
equal two-candidate strings, the dict entry keyed by that string (later
pairs overwrite earlier ones, as in the Python dict). -/
def collectTwins (v : Board) (tb : List Cell) : List (List Char × (Cell × Cell)) :=
  (pairsOf tb).foldl
    (fun m pr => if v.get pr.1 = v.get pr.2 then upsertPair m (v.get pr.1) pr else m) []

/-- The body of `naked_twins`'s outer loop for a single unit: find the twin
pairs from the state at entry, then strip both twin digits (via
`re.sub('[kk]', '', ·)`, i.e. a character-class filter) from every box of
the unit outside the pair. -/
def naked_twins_unit (σ0 : SState) (u : List Cell) : SState :=
  (collectTwins σ0.values (u.filter (fun b => decide ((σ0.values.get b).length = 2)))).foldl
    (fun σ kp =>
      (u.filter (fun b => decide (b ≠ kp.2.1 ∧ b ≠ kp.2.2))).foldl
        (fun σ2 p =>
          assign_value σ2 p ((σ2.values.get p).filter (fun ch => decide (ch ∉ kp.1)))) σ)
    σ0

/-- Python `naked_twins`: the single-unit step folded over the unit list. -/
def naked_twins (σ : SState) : SState := _unitlist.foldl naked_twins_unit σ

/-- Python `only_choice`: for every unit and digit, when exactly one box of
the unit still lists the digit, assign the digit to that box. -/
def only_choice (σ0 : SState) : SState :=
  _unitlist.foldl
    (fun σu u =>
      digitsL.foldl
        (fun σ d =>
          match u.filter (fun b => decide (d ∈ σ.values.get b)) with
          | [b] => assign_value σ b [d]
          | _ => σ)
        σu)
    σ0

/-- One full pass of the reduction loop, in the source's fixed order. -/
def reduceStep (σ : SState) : SState := only_choice (naked_twins (eliminate σ))

def solvedCount (v : Board) : Nat :=
  (_boxes.filter (fun b => decide ((v.get b).length = 1))).length

def emptyCount (v : Board) : Nat :=
  (_boxes.filter (fun b => decide ((v.get b).length = 0))).length

/-- Python `reduce_puzzle`'s `while` loop with explicit fuel: run a pass,
fail on any empty candidate string, stop when the solved-box count did not
change, else iterate. -/
def reduceFuel : Nat → SState → Option SState
  | 0, _ => none
  | n + 1, σ =>
    let before := solvedCount σ.values
    let σ2 := reduceStep σ
    let after := solvedCount σ2.values
    if emptyCount σ2.values ≠ 0 then none
    else if before = after then some σ2
    else reduceFuel n σ2

/-- Python `reduce_puzzle`.  Each continuing iteration strictly increases
the solved-box count (≤ 81), so fuel 82 is never exhausted
(`reduceFuel_stable` below). -/
def reduce_puzzle (σ : SState) : Option SState := reduceFuel 82 σ

def allSolvedB (v : Board) : Bool := _boxes.all (fun b => (v.get b).length == 1)

/-- Python `min((len(values[s]), s) for s in _boxes if len(values[s]) > 1)`:
tuple `min` is lexicographic on (length, box name) and `_boxes` is in name
order, so keeping the first box among those of minimal length agrees with
it.  (Unreachable default when no multi-candidate box exists.) -/
def chooseMin (v : Board) : Cell :=
  match _boxes.filter (fun b => decide (1 < (v.get b).length)) with
  | [] => ⟨0, by omega⟩
  | b :: rest => rest.foldl (fun best x => if (v.get x).length < (v.get best).length then x else best) b

/-- The branch point of `search` (lines 193-194): copy the board and write
the guessed digit directly into the chosen box — NOT via `assign_value`,
so the assignment trace is untouched. -/
def searchBranch (σ : SState) (s : Cell) (c : Char) : SState :=
  { values := σ.values.set s [c], assignments := σ.assignments }

/-- The candidate loop of `search`: return the first recursive attempt that
succeeds (`if attempt: return attempt`), `none` when all fail. -/
def tryEach (f : Char → Option SState) : List Char → Option SState
  | [] => none
  | c :: cs =>
    match f c with
    | some a => some a
    | none => tryEach f cs

/-- The body of Python `search`, with the recursive call abstracted:
reduce, fail/succeed, otherwise guess each candidate of the
minimum-remaining-value box in order. -/
def searchBody (rec : SState → Option SState) (σ : SState) : Option SState :=
  match reduce_puzzle σ with
  | none => none
  | some σ2 =>
    if allSolvedB σ2.values then some σ2
    else
      tryEach (fun c => rec (searchBranch σ2 (chooseMin σ2.values) c))
        (σ2.values.get (chooseMin σ2.values))

/-- Python `search` with explicit fuel. -/
def searchFuel : Nat → SState → Option SState
  | 0, _ => none
  | n + 1, σ => searchBody (searchFuel n) σ

def totalLen (v : Board) : Nat := (_boxes.map (fun b => (v.get b).length)).sum

/-- Python `search`.  Every recursive call strictly decreases the total
candidate count, so fuel `totalLen + 1` is never exhausted
(`searchFuel_stable` below). -/
def search (σ : SState) : Option SState := searchFuel (totalLen σ.values + 1) σ

/-- Python `grid_values`: digits map to themselves, `'.'` to the full digit
string; the `assert len(chars) == 81` becomes `Option`. -/
def gridChars : List Char → List (List Char)
  | [] => []
  | c :: rest =>
    if decide (c ∈ digitsL) then [c] :: gridChars rest
    else if c = '.' then digitsL :: gridChars rest
    else gridChars rest

def grid_values (grid : List Char) : Option Board :=
  if h : (gridChars grid).length = 81 then some ⟨gridChars grid, h⟩ else none

/-- Python `solve`: parse the grid and search, starting from the empty
assignment trace. -/
def solve (grid : List Char) : Option SState :=
  match grid_values grid with
  | none => none
  | some v => search { values := v, assignments := [] }

/-! ### Basic board and `assign_value` lemmas -/

theorem Board.get_set_self (v : Board) (c : Cell) (x : List Char) :
    (v.set c x).get c = x := by
  simp [Board.get, Board.set, List.get_eq_getElem, List.getElem_set]

theorem Board.get_set_ne (v : Board) {c c2 : Cell} (h : c2 ≠ c) (x : List Char) :
    (v.set c x).get c2 = v.get c2 := by
  have hv : c.val ≠ c2.val := fun hv => h (Fin.ext hv.symm)
  simp [Board.get, Board.set, List.get_eq_getElem, List.getElem_set, hv]

theorem assign_value_of_eq {σ : SState} {b : Cell} {v : List Char}
    (h : σ.values.get b = v) : assign_value σ b v = σ := by
  simp [assign_value, h]

theorem assign_value_get_self (σ : SState) (b : Cell) (v : List Char) :
    (assign_value σ b v).values.get b = v := by
  by_cases h : σ.values.get b = v
  · simp [assign_value, h]
  · by_cases h1 : v.length = 1 <;> simp [assign_value, h, h1, Board.get_set_self]

theorem assign_value_get_ne (σ : SState) {b c : Cell} (h : c ≠ b) (v : List Char) :
    (assign_value σ b v).values.get c = σ.values.get c := by
  by_cases h0 : σ.values.get b = v
  · simp [assign_value, h0]
  · by_cases h1 : v.length = 1 <;> simp [assign_value, h0, h1, Board.get_set_ne _ h]

/-! ### Pointwise-sublist ("candidates only shrink") machinery -/

/-- Every box of `w` holds a subsequence of the same box of `v`. -/
def Shrinks (w v : Board) : Prop := ∀ c : Cell, w.get c <+ v.get c

theorem Shrinks.rfl (v : Board) : Shrinks v v := fun _ => List.Sublist.refl _

theorem Shrinks.trans {w v u : Board} (h1 : Shrinks w v) (h2 : Shrinks v u) : Shrinks w u :=
  fun c => (h1 c).trans (h2 c)

theorem assign_value_shrinks {σ : SState} {b : Cell} {v : List Char}
    (h : v <+ σ.values.get b) : Shrinks (assign_value σ b v).values σ.values := by
  intro c
  by_cases hc : c = b
  · subst hc; rw [assign_value_get_self]; exact h
  · rw [assign_value_get_ne σ hc]

theorem foldl_shrinks {β : Type} (f : SState → β → SState) (l : List β)
    (hf : ∀ σ x, x ∈ l → Shrinks (f σ x).values σ.values) (σ0 : SState) :
    Shrinks (l.foldl f σ0).values σ0.values := by
  induction l generalizing σ0 with
  | nil => exact Shrinks.rfl _
  | cons x xs ih =>
    simp only [List.foldl_cons]
    exact (ih (fun σ y hy => hf σ y (List.mem_cons_of_mem _ hy)) (f σ0 x)).trans
      (hf σ0 x (List.mem_cons_self _ _))

/-- A fold whose steps each write only their own box leaves untouched boxes
unchanged. -/
theorem foldl_assign_get_of_not_mem (g : List Char → List Char) (l : List Cell)
    {c : Cell} (hc : c ∉ l) (σ0 : SState) :
    ((l.foldl (fun σ p => assign_value σ p (g (σ.values.get p))) σ0).values.get c)
      = σ0.values.get c := by
  induction l generalizing σ0 with
  | nil => rfl
  | cons p rest ih =>
    simp only [List.foldl_cons]
    rw [ih (fun h => hc (List.mem_cons_of_mem _ h)),
      assign_value_get_ne _ (fun h => hc (by rw [h]; exact List.mem_cons_self _ _))]

/-- A fold whose steps each rewrite their own box by `g` of its current
value acts exactly once on each box of a duplicate-free list. -/
theorem foldl_assign_get_of_mem (g : List Char → List Char) (l : List Cell)
    (hl : l.Nodup) {c : Cell} (hc : c ∈ l) (σ0 : SState) :
    ((l.foldl (fun σ p => assign_value σ p (g (σ.values.get p))) σ0).values.get c)
      = g (σ0.values.get c) := by
  induction l generalizing σ0 with
  | nil => cases hc
  | cons p rest ih =>
    simp only [List.foldl_cons]
    rcases List.mem_cons.mp hc with h | h
    · subst h
      rw [foldl_assign_get_of_not_mem _ _ (List.nodup_cons.mp hl).1,
        assign_value_get_self]
    · have hcp : c ≠ p := fun he => (List.nodup_cons.mp hl).1 (he ▸ h)
      rw [ih (List.nodup_cons.mp hl).2 h, assign_value_get_ne _ hcp]

/-! ### `strReplace` (Python `str.replace(·, '')`) lemmas -/

theorem replFuel_sublist : ∀ (n : Nat) (s pat : List Char), replFuel n s pat <+ s := by
  intro n
  induction n with
  | zero => intro s pat; exact List.Sublist.refl _
  | succ n ih =>
    intro s pat
    match s with
    | [] => exact List.Sublist.refl _
    | c :: rest =>
      simp only [replFuel]
      split
      · exact List.Sublist.refl _
      · split
        · exact (ih _ _).trans (List.drop_sublist _ _)
        · exact List.Sublist.cons₂ _ (ih _ _)

theorem strReplace_sublist (s pat : List Char) : strReplace s pat <+ s :=
  replFuel_sublist _ _ _

theorem replFuel_single (d : Char) : ∀ (n : Nat) (s : List Char), s.length ≤ n →
    replFuel n s [d] = s.filter (fun ch => decide (ch ≠ d)) := by
  intro n
  induction n with
  | zero =>
    intro s hs
    rw [List.length_eq_zero.mp (Nat.le_zero.mp hs)]; rfl
  | succ n ih =>
    intro s hs
    match s with
    | [] => rfl
    | c :: rest =>
      simp only [replFuel]
      rw [if_neg (by simp : ¬([d] : List Char) = [])]
      simp only [List.length_cons, Nat.add_le_add_iff_right] at hs
      by_cases hcd : c = d
      · subst hcd
        rw [if_pos (by simp [List.isPrefixOf] : List.isPrefixOf [c] (c :: rest) = true)]
        have hdrop : (c :: rest).drop ([c] : List Char).length = rest := rfl
        rw [hdrop, ih rest hs]
        simp
      · rw [if_neg (by simp [List.isPrefixOf] ; exact fun h => hcd h.symm)]
        rw [ih rest hs]
        simp [hcd]

/-- Python `s.replace(d, '')` for a single character `d` removes exactly the
occurrences of `d`. -/
theorem strReplace_single (s : List Char) (d : Char) :
    strReplace s [d] = s.filter (fun ch => decide (ch ≠ d)) :=
  replFuel_single d s.length s (Nat.le_refl _)

theorem strReplace_nil_pat (s : List Char) : strReplace s [] = s := by
  match s with
  | [] => rfl
  | c :: rest => simp [strReplace, replFuel]

/-! ### The three techniques only remove candidates -/

theorem eliminate_shrinks (σ : SState) : Shrinks (eliminate σ).values σ.values := by
  unfold eliminate
  refine foldl_shrinks _ _ (fun σ1 b _ => ?_) σ
  exact foldl_shrinks _ _ (fun σ2 p _ => assign_value_shrinks (strReplace_sublist _ _)) σ1

theorem naked_twins_unit_shrinks (σ : SState) (u : List Cell) :
    Shrinks (naked_twins_unit σ u).values σ.values := by
  unfold naked_twins_unit
  refine foldl_shrinks _ _ (fun σ1 kp _ => ?_) σ
  exact foldl_shrinks _ _ (fun σ2 p _ => assign_value_shrinks (List.filter_sublist _)) σ1

theorem naked_twins_shrinks (σ : SState) : Shrinks (naked_twins σ).values σ.values :=
  foldl_shrinks _ _ (fun σ1 u _ => naked_twins_unit_shrinks σ1 u) σ

theorem only_choice_shrinks (σ : SState) : Shrinks (only_choice σ).values σ.values := by
  unfold only_choice
  refine foldl_shrinks _ _ (fun σu u _ => ?_) σ
  refine foldl_shrinks _ _ (fun σ1 d _ => ?_) σu
  rcases hf : u.filter (fun b => decide (d ∈ σ1.values.get b)) with - | ⟨b, rest⟩
  · simp [hf, Shrinks.rfl]
  · rcases rest with - | ⟨b2, rest2⟩
    · simp only [hf]
      have hb : b ∈ u.filter (fun b => decide (d ∈ σ1.values.get b)) := by
        rw [hf]; exact List.mem_cons_self _ _
      have hd : d ∈ σ1.values.get b := by
        have := List.of_mem_filter hb
        exact of_decide_eq_true this
      exact assign_value_shrinks (List.singleton_sublist.mpr hd)
    · simp [hf, Shrinks.rfl]

theorem reduceStep_shrinks (σ : SState) : Shrinks (reduceStep σ).values σ.values :=
  ((only_choice_shrinks _).trans (naked_twins_shrinks _)).trans (eliminate_shrinks σ)

theorem reduceFuel_shrinks :
    ∀ (n : Nat) (σ w : SState), reduceFuel n σ = some w → Shrinks w.values σ.values := by
  intro n
  induction n with
  | zero => intro σ w h; simp [reduceFuel] at h
  | succ n ih =>
    intro σ w h
    simp only [reduceFuel] at h
    split at h
    · exact absurd h (by simp)
    · split at h
      · cases Option.some.inj h
        exact reduceStep_shrinks σ
      · exact (ih _ _ h).trans (reduceStep_shrinks σ)

theorem reduce_puzzle_shrinks (σ w : SState) (h : reduce_puzzle σ = some w) :
    Shrinks w.values σ.values :=
  reduceFuel_shrinks 82 σ w h

/-- One-step unfolding of the reduction loop. -/
theorem reduceFuel_succ (n : Nat) (σ : SState) :
    reduceFuel (n + 1) σ =
      if emptyCount (reduceStep σ).values ≠ 0 then none
      else if solvedCount σ.values = solvedCount (reduceStep σ).values then some (reduceStep σ)
      else reduceFuel n (reduceStep σ) := rfl

/-! ### Counting lemmas and fuel stabilization for the reduction loop -/

theorem boxes_nodup : _boxes.Nodup := List.nodup_finRange 81

theorem boxes_length : _boxes.length = 81 := List.length_finRange 81

theorem mem_boxes (c : Cell) : c ∈ _boxes := List.mem_finRange c

theorem peers_nodup (c : Cell) : (_peers c).Nodup := List.nodup_dedup _

theorem get_eq_of_solved {w v : Board} (hs : Shrinks w v) {b : Cell}
    (h1 : (v.get b).length = 1) (h0 : (w.get b).length ≠ 0) : w.get b = v.get b := by
  rcases List.length_eq_one.mp h1 with ⟨a, ha⟩
  have hsub := hs b
  rw [ha] at hsub ⊢
  rcases List.sublist_singleton.mp hsub with h | h
  · rw [h] at h0; simp at h0
  · exact h

theorem countP_mono_of_imp {α : Type} (l : List α) (p q : α → Bool)
    (h : ∀ a ∈ l, p a = true → q a = true) : l.countP p ≤ l.countP q := by
  induction l with
  | nil => exact Nat.le_refl _
  | cons a t ih =>
    rw [List.countP_cons, List.countP_cons]
    have ht := ih (fun x hx => h x (List.mem_cons_of_mem _ hx))
    by_cases hpa : p a = true
    · rw [if_pos hpa, if_pos (h a (List.mem_cons_self _ _) hpa)]; omega
    · rw [if_neg hpa]
      exact Nat.le_trans (by omega) (Nat.add_le_add ht (Nat.zero_le _))

theorem emptyCount_eq_zero_iff (v : Board) :
    emptyCount v = 0 ↔ ∀ b : Cell, (v.get b).length ≠ 0 := by
  unfold emptyCount
  rw [List.length_eq_zero, List.filter_eq_nil_iff]
  constructor
  · intro h b hb
    exact h b (mem_boxes b) (decide_eq_true hb)
  · intro h b _ hb
    exact h b (of_decide_eq_true hb)

theorem solvedCount_le {w v : Board} (hs : Shrinks w v)
    (hne : ∀ b : Cell, (w.get b).length ≠ 0) : solvedCount v ≤ solvedCount w := by
  unfold solvedCount
  rw [← List.countP_eq_length_filter, ← List.countP_eq_length_filter]
  apply countP_mono_of_imp
  intro b _ hb
  have h1 := of_decide_eq_true hb
  exact decide_eq_true (by rw [get_eq_of_solved hs h1 (hne b)]; exact h1)

theorem solvedCount_le_81 (v : Board) : solvedCount v ≤ 81 := by
  unfold solvedCount
  calc (List.filter _ _).length ≤ _boxes.length := (List.filter_sublist _).length_le
  _ = 81 := boxes_length

theorem solvedCount_eq_81 (v : Board) (h : ∀ c : Cell, (v.get c).length = 1) :
    solvedCount v = 81 := by
  unfold solvedCount
  rw [List.filter_eq_self.mpr (fun b _ => decide_eq_true (h b)), boxes_length]

theorem allSolved_of_solvedCount_eq (v : Board) (h : solvedCount v = 81) :
    ∀ c : Cell, (v.get c).length = 1 := by
  unfold solvedCount at h
  have hf : (_boxes.filter (fun b => decide ((v.get b).length = 1))) = _boxes :=
    (List.filter_sublist _).eq_of_length (by rw [h, boxes_length])
  intro c
  have hc : c ∈ _boxes.filter (fun b => decide ((v.get b).length = 1)) := by
    rw [hf]; exact mem_boxes c
  have hdec := List.of_mem_filter hc
  exact of_decide_eq_true hdec

theorem allSolvedB_iff (v : Board) :
    allSolvedB v = true ↔ ∀ c : Cell, (v.get c).length = 1 := by
  unfold allSolvedB
  rw [List.all_eq_true]
  constructor
  · intro h c
    simpa using h c (mem_boxes c)
  · intro h c _
    simp [h c]

theorem reduceFuel_noempty : ∀ (n : Nat) (σ w : SState), reduceFuel n σ = some w →
    emptyCount w.values = 0 := by
  intro n
  induction n with
  | zero => intro σ w h; simp [reduceFuel] at h
  | succ n ih =>
    intro σ w h
    simp only [reduceFuel] at h
    split at h
    · simp at h
    · split at h
      · cases Option.some.inj h
        rename_i hne _
        exact Decidable.not_not.mp hne
      · exact ih _ _ h

/-- Extracting the final (stalled) pass that produced a successful
reduction result. -/
theorem reduceFuel_stalled : ∀ (n : Nat) (σ w : SState), reduceFuel n σ = some w →
    ∃ σp : SState, w = reduceStep σp ∧ solvedCount σp.values = solvedCount w.values ∧
      emptyCount w.values = 0 := by
  intro n
  induction n with
  | zero => intro σ w h; simp [reduceFuel] at h
  | succ n ih =>
    intro σ w h
    simp only [reduceFuel] at h
    split at h
    · simp at h
    · split at h
      · obtain rfl : reduceStep σ = w := Option.some.inj h
        rename_i hne hst
        exact ⟨σ, rfl, hst, Decidable.not_not.mp hne⟩
      · exact ih _ _ h

/-- Each continuing iteration of the loop strictly increases the solved-box
count, so any fuel above `81 - solvedCount` computes the same result: the
fuel `82` used in `reduce_puzzle` never runs out. -/
theorem reduceFuel_stable : ∀ (n m : Nat) (σ : SState),
    81 < n + solvedCount σ.values → 81 < m + solvedCount σ.values →
    reduceFuel n σ = reduceFuel m σ := by
  intro n
  induction n using Nat.strong_induction_on with
  | _ n ih =>
    intro m σ hn hm
    match n, m with
    | 0, _ => exact absurd hn (by have := solvedCount_le_81 σ.values; omega)
    | _ + 1, 0 => exact absurd hm (by have := solvedCount_le_81 σ.values; omega)
    | a + 1, b + 1 =>
      simp only [reduceFuel]
      split
      · rfl
      · split
        · rfl
        · rename_i hne hst
          have hz : emptyCount (reduceStep σ).values = 0 := Decidable.not_not.mp hne
          have hle : solvedCount σ.values ≤ solvedCount (reduceStep σ).values :=
            solvedCount_le (reduceStep_shrinks σ) ((emptyCount_eq_zero_iff _).mp hz)
          have hlt : solvedCount σ.values < solvedCount (reduceStep σ).values :=
            lt_of_le_of_ne hle hst
          exact ih a (Nat.lt_succ_self a) b (reduceStep σ) (by omega) (by omega)

/-! ### The elimination conflict lemma -/

/-- The body of `eliminate`'s outer loop for one solved box. -/
def elimBox (σ : SState) (b : Cell) : SState :=
  let digit := σ.values.get b
  (_peers b).foldl (fun σ2 p => assign_value σ2 p (strReplace (σ2.values.get p) digit)) σ

theorem eliminate_eq (σ : SState) :
    eliminate σ
      = (_boxes.filter (fun b => decide ((σ.values.get b).length = 1))).foldl elimBox σ := rfl

theorem elimBox_shrinks (σ : SState) (b : Cell) : Shrinks (elimBox σ b).values σ.values :=
  foldl_shrinks _ _ (fun σ2 p _ => assign_value_shrinks (strReplace_sublist _ _)) σ

/-- Processing a box `b` that is solved in `eliminate`'s input either leaves
some box empty, or removes `b`'s digit from any given peer `p` of `b`. -/
theorem eliminate_conflict (σ : SState) (b p : Cell)
    (hb1 : (σ.values.get b).length = 1) (hp : p ∈ _peers b) :
    (∃ c : Cell, (eliminate σ).values.get c = []) ∨
      (∀ ch ∈ σ.values.get b, ch ∉ (eliminate σ).values.get p) := by
  have hbL : b ∈ _boxes.filter (fun b => decide ((σ.values.get b).length = 1)) :=
    List.mem_filter.mpr ⟨mem_boxes b, decide_eq_true hb1⟩
  obtain ⟨L1, L2, hsplit⟩ := List.append_of_mem hbL
  have hfold : eliminate σ = L2.foldl elimBox (elimBox (L1.foldl elimBox σ) b) := by
    rw [eliminate_eq, hsplit, List.foldl_append, List.foldl_cons]
  rcases List.length_eq_one.mp hb1 with ⟨d, hd⟩
  have hshr1 : Shrinks (L1.foldl elimBox σ).values σ.values :=
    foldl_shrinks _ _ (fun σ2 x _ => elimBox_shrinks σ2 x) σ
  have hb' : (L1.foldl elimBox σ).values.get b <+ [d] := hd ▸ hshr1 b
  have hshr2 : Shrinks (eliminate σ).values (elimBox (L1.foldl elimBox σ) b).values := by
    rw [hfold]
    exact foldl_shrinks _ _ (fun σ2 x _ => elimBox_shrinks σ2 x) _
  rcases List.sublist_singleton.mp hb' with hbe | hbd
  · refine Or.inl ⟨b, List.sublist_nil.mp ?_⟩
    have h1 : (elimBox (L1.foldl elimBox σ) b).values.get b
        <+ (L1.foldl elimBox σ).values.get b := elimBox_shrinks _ b b
    rw [hbe] at h1
    exact (hshr2 b).trans h1
  · refine Or.inr ?_
    intro ch hch hmem
    have hchd : ch = d := by
      rw [hd] at hch
      exact List.mem_singleton.mp hch
    subst hchd
    have hFp : (elimBox (L1.foldl elimBox σ) b).values.get p
        = strReplace ((L1.foldl elimBox σ).values.get p) [ch] := by
      have he : elimBox (L1.foldl elimBox σ) b = (_peers b).foldl
          (fun σ2 p => assign_value σ2 p (strReplace (σ2.values.get p) [ch])) (L1.foldl elimBox σ) := by
        simp only [elimBox, hbd]
      rw [he]
      exact foldl_assign_get_of_mem (fun l => strReplace l [ch]) (_peers b) (peers_nodup b) hp _
    have hnd : ch ∉ (elimBox (L1.foldl elimBox σ) b).values.get p := by
      rw [hFp, strReplace_single]
      intro hmf
      have := List.of_mem_filter hmf
      simp at this
    exact hnd ((hshr2 p).subset hmem)

/-! ### A successful all-solved reduction output has distinct peers -/

/-- No two boxes sharing a unit hold the same candidate string. -/
def PeerDistinct (w : SState) : Prop :=
  ∀ b p : Cell, p ∈ _peers b → w.values.get b ≠ w.values.get p

theorem reduceStep_shrinks_elim (σ : SState) :
    Shrinks (reduceStep σ).values (eliminate σ).values :=
  (only_choice_shrinks _).trans (naked_twins_shrinks _)

theorem reduceFuel_peerDistinct : ∀ (n : Nat) (σ w : SState), reduceFuel n σ = some w →
    (∀ c : Cell, (w.values.get c).length = 1) → PeerDistinct w := by
  intro n
  induction n with
  | zero => intro σ w h _; simp [reduceFuel] at h
  | succ n ih =>
    intro σ w h hall
    simp only [reduceFuel] at h
    split at h
    · simp at h
    · split at h
      · obtain rfl : reduceStep σ = w := Option.some.inj h
        rename_i hne hst
        have hallσ : ∀ c : Cell, (σ.values.get c).length = 1 := by
          apply allSolved_of_solvedCount_eq
          rw [hst]
          exact solvedCount_eq_81 _ hall
        intro b p hp heq
        rcases eliminate_conflict σ b p (hallσ b) hp with ⟨c, hc⟩ | hnot
        · have hsub : (reduceStep σ).values.get c <+ (eliminate σ).values.get c :=
            reduceStep_shrinks_elim σ c
          rw [hc] at hsub
          have hl := hall c
          rw [List.sublist_nil.mp hsub] at hl
          simp at hl
        · have hwb : (reduceStep σ).values.get b = σ.values.get b :=
            get_eq_of_solved (reduceStep_shrinks σ) (hallσ b) (by rw [hall b]; omega)
          rcases List.length_eq_one.mp (hallσ b) with ⟨d, hd⟩
          have hdb : d ∈ σ.values.get b := by rw [hd]; exact List.mem_singleton.mpr rfl
          have hdp : d ∈ (reduceStep σ).values.get p := by
            rw [← heq, hwb, hd]; exact List.mem_singleton.mpr rfl
          exact hnot d hdb ((reduceStep_shrinks_elim σ p).subset hdp)
      · exact ih _ _ h hall

/-! ### Search lemmas -/

theorem tryEach_some : ∀ (f : Char → Option SState) (cs : List Char) (w : SState),
    tryEach f cs = some w → ∃ c ∈ cs, f c = some w := by
  intro f cs
  induction cs with
  | nil => intro w h; simp [tryEach] at h
  | cons c t ih =>
    intro w h
    simp only [tryEach] at h
    split at h
    · rename_i a ha
      cases Option.some.inj h
      exact ⟨c, List.mem_cons_self _ _, ha⟩
    · obtain ⟨x, hx, hfx⟩ := ih w h
      exact ⟨x, List.mem_cons_of_mem _ hx, hfx⟩

theorem tryEach_congr {f g : Char → Option SState} : ∀ (cs : List Char),
    (∀ c ∈ cs, f c = g c) → tryEach f cs = tryEach g cs := by
  intro cs
  induction cs with
  | nil => intro _; rfl
  | cons c t ih =>
    intro h
    simp only [tryEach]
    rw [h c (List.mem_cons_self _ _), ih (fun x hx => h x (List.mem_cons_of_mem _ hx))]

theorem foldl_pick_prop {α : Type} (P : α → Prop) (f : α → α → α)
    (hf : ∀ acc x, f acc x = acc ∨ f acc x = x) :
    ∀ (l : List α) (a : α), P a → (∀ x ∈ l, P x) → P (l.foldl f a) := by
  intro l
  induction l with
  | nil => intro a ha _; exact ha
  | cons x xs ih =>
    intro a ha hl
    simp only [List.foldl_cons]
    rcases hf a x with h | h
    · rw [h]; exact ih a ha (fun y hy => hl y (List.mem_cons_of_mem _ hy))
    · rw [h]
      exact ih x (hl x (List.mem_cons_self _ _)) (fun y hy => hl y (List.mem_cons_of_mem _ hy))

/-- The chosen branching box really has more than one candidate, provided
some box does. -/
theorem chooseMin_spec (v : Board) (hex : ∃ b : Cell, 1 < (v.get b).length) :
    1 < (v.get (chooseMin v)).length := by
  obtain ⟨b0, hb0⟩ := hex
  have hmem : b0 ∈ _boxes.filter (fun b => decide (1 < (v.get b).length)) :=
    List.mem_filter.mpr ⟨mem_boxes b0, decide_eq_true hb0⟩
  unfold chooseMin
  rcases hfil : _boxes.filter (fun b => decide (1 < (v.get b).length)) with - | ⟨b, rest⟩
  · rw [hfil] at hmem; cases hmem
  · have hbprop : 1 < (v.get b).length := by
      have hb : b ∈ _boxes.filter (fun b => decide (1 < (v.get b).length)) := by
        rw [hfil]; exact List.mem_cons_self _ _
      have hdec := List.of_mem_filter hb
      exact of_decide_eq_true hdec
    have hrest : ∀ x ∈ rest, 1 < (v.get x).length := by
      intro x hx
      have hxm : x ∈ _boxes.filter (fun b => decide (1 < (v.get b).length)) := by
        rw [hfil]; exact List.mem_cons_of_mem _ hx
      have hdec := List.of_mem_filter hxm
      exact of_decide_eq_true hdec
    exact foldl_pick_prop (fun x => 1 < (v.get x).length)
      (fun best x => if (v.get x).length < (v.get best).length then x else best)
      (fun acc x => by
        dsimp only
        by_cases hx : (v.get x).length < (v.get acc).length
        · rw [if_pos hx]; exact Or.inr rfl
        · rw [if_neg hx]; exact Or.inl rfl)
      rest b hbprop hrest

theorem sum_lengths_ge (l : List Cell) (v : Board) (h : ∀ b : Cell, v.get b ≠ []) :
    l.length ≤ (l.map (fun b => (v.get b).length)).sum := by
  induction l with
  | nil => simp
  | cons b t ih =>
    simp only [List.map_cons, List.sum_cons, List.length_cons]
    have h1 : 1 ≤ (v.get b).length := List.length_pos.mpr (h b)
    omega

theorem totalLen_ge_81 (v : Board) (h : ∀ b : Cell, v.get b ≠ []) : 81 ≤ totalLen v := by
  unfold totalLen
  have hs := sum_lengths_ge _boxes v h
  rw [boxes_length] at hs
  exact hs

theorem totalLen_le_of_shrinks {w v : Board} (h : Shrinks w v) : totalLen w ≤ totalLen v := by
  unfold totalLen
  have hgen : ∀ l : List Cell,
      (l.map (fun b => (w.get b).length)).sum ≤ (l.map (fun b => (v.get b).length)).sum := by
    intro l
    induction l with
    | nil => simp
    | cons b t ih =>
      simp only [List.map_cons, List.sum_cons]
      exact Nat.add_le_add ((h b).length_le) ih
  exact hgen _boxes

theorem totalLen_set (v : Board) (s : Cell) (x : List Char) :
    totalLen (v.set s x) + (v.get s).length = totalLen v + x.length := by
  unfold totalLen
  obtain ⟨L1, L2, hsplit⟩ := List.append_of_mem (mem_boxes s)
  have hnd : (L1 ++ s :: L2).Nodup := by rw [← hsplit]; exact boxes_nodup
  have hdisj := (List.nodup_append.mp hnd).2.2
  have hs1 : s ∉ L1 := fun hmem => hdisj hmem (List.mem_cons_self _ _)
  have hs2 : s ∉ L2 := (List.nodup_cons.mp (List.nodup_append.mp hnd).2.1).1
  rw [hsplit]
  simp only [List.map_append, List.map_cons, List.sum_append, List.sum_cons]
  have h1 : L1.map (fun b => ((v.set s x).get b).length) = L1.map (fun b => (v.get b).length) :=
    List.map_congr_left (fun b hb => by
      rw [Board.get_set_ne v (fun he => hs1 (by rw [← he]; exact hb)) x])
  have h2 : L2.map (fun b => ((v.set s x).get b).length) = L2.map (fun b => (v.get b).length) :=
    List.map_congr_left (fun b hb => by
      rw [Board.get_set_ne v (fun he => hs2 (by rw [← he]; exact hb)) x])
  rw [h1, h2, Board.get_set_self]
  omega

theorem totalLen_branch_lt {σ2 : SState} {s : Cell} (hs : 1 < (σ2.values.get s).length)
    (c : Char) : totalLen (searchBranch σ2 s c).values < totalLen σ2.values := by
  have hset := totalLen_set σ2.values s [c]
  simp only [List.length_cons, List.length_nil] at hset
  simp only [searchBranch]
  omega

theorem searchFuel_zero (σ : SState) : searchFuel 0 σ = none := rfl

theorem searchFuel_succ (n : Nat) (σ : SState) :
    searchFuel (n + 1) σ = searchBody (searchFuel n) σ := rfl

/-- Any successful `searchFuel` result is fully solved, holds a pointwise
subsequence of the input board, and assigns no unit's box twice. -/
theorem searchFuel_valid : ∀ (n : Nat) (σ w : SState), searchFuel n σ = some w →
    (∀ c : Cell, (w.values.get c).length = 1) ∧ Shrinks w.values σ.values ∧ PeerDistinct w := by
  intro n
  induction n with
  | zero => intro σ w h; rw [searchFuel_zero] at h; cases h
  | succ n ih =>
    intro σ w h
    rw [searchFuel_succ] at h
    unfold searchBody at h
    split at h
    · simp at h
    · rename_i σ2 hred
      split at h
      · cases Option.some.inj h
        rename_i hall
        refine ⟨(allSolvedB_iff _).mp hall, reduce_puzzle_shrinks _ _ hred, ?_⟩
        exact reduceFuel_peerDistinct 82 _ _ hred ((allSolvedB_iff _).mp hall)
      · obtain ⟨c, hc, hfc⟩ := tryEach_some _ _ _ h
        obtain ⟨h1, h2, h3⟩ := ih _ _ hfc
        refine ⟨h1, ?_, h3⟩
        have hbr : Shrinks (searchBranch σ2 (chooseMin σ2.values) c).values σ2.values := by
          intro x
          by_cases hx : x = chooseMin σ2.values
          · subst hx
            simp only [searchBranch]
            rw [Board.get_set_self]
            exact List.singleton_sublist.mpr hc
          · simp only [searchBranch]
            rw [Board.get_set_ne _ hx]
        exact (h2.trans hbr).trans (reduce_puzzle_shrinks _ _ hred)

/-- Above fuel `totalLen`, the result of `searchFuel` no longer depends on
the fuel: the recursion of Python's `search` terminates within that bound. -/
theorem searchFuel_stable : ∀ (n m : Nat) (σ : SState),
    totalLen σ.values < n → totalLen σ.values < m → searchFuel n σ = searchFuel m σ := by
  intro n
  induction n using Nat.strong_induction_on with
  | _ n ih =>
    intro m σ hn hm
    match n, m with
    | 0, _ => omega
    | _ + 1, 0 => omega
    | a + 1, b + 1 =>
      rw [searchFuel_succ, searchFuel_succ]
      unfold searchBody
      split
      · rfl
      · rename_i σ2 hred
        split
        · rfl
        · rename_i hnall
          apply tryEach_congr
          intro c _
          have hshr : Shrinks σ2.values σ.values := reduce_puzzle_shrinks _ _ hred
          have hne : ∀ bb : Cell, (σ2.values.get bb).length ≠ 0 :=
            (emptyCount_eq_zero_iff _).mp (reduceFuel_noempty 82 _ _ hred)
          have hex : ∃ bb : Cell, 1 < (σ2.values.get bb).length := by
            by_contra hno
            push_neg at hno
            apply hnall
            refine (allSolvedB_iff _).mpr (fun cc => ?_)
            have hc1 := hno cc
            have hc2 := hne cc
            omega
          have hlt : totalLen (searchBranch σ2 (chooseMin σ2.values) c).values
              < totalLen σ2.values := totalLen_branch_lt (chooseMin_spec _ hex) c
          have hle : totalLen σ2.values ≤ totalLen σ.values := totalLen_le_of_shrinks hshr
          exact ih a (Nat.lt_succ_self a) b _ (by omega) (by omega)

/-! ### The reduction output is a fixed point of `eliminate` -/

theorem countP_eq_of_imp {α : Type} (l : List α) (p q : α → Bool)
    (himp : ∀ a ∈ l, p a = true → q a = true) (hcnt : l.countP p = l.countP q) :
    ∀ a ∈ l, q a = true → p a = true := by
  induction l with
  | nil => intro a ha; cases ha
  | cons x t ih =>
    intro a ha hqa
    rw [List.countP_cons, List.countP_cons] at hcnt
    have hmono := countP_mono_of_imp t p q (fun y hy => himp y (List.mem_cons_of_mem _ hy))
    by_cases hpx : p x = true
    · have hqx := himp x (List.mem_cons_self _ _) hpx
      rw [if_pos hpx, if_pos hqx] at hcnt
      have ht : t.countP p = t.countP q := by omega
      rcases List.mem_cons.mp ha with rfl | hat
      · exact hpx
      · exact ih (fun y hy => himp y (List.mem_cons_of_mem _ hy)) ht a hat hqa
    · rw [if_neg hpx] at hcnt
      by_cases hqx : q x = true
      · rw [if_pos hqx] at hcnt
        exact absurd hcnt (by omega)
      · rw [if_neg hqx] at hcnt
        have ht : t.countP p = t.countP q := by omega
        rcases List.mem_cons.mp ha with rfl | hat
        · exact absurd hqa hqx
        · exact ih (fun y hy => himp y (List.mem_cons_of_mem _ hy)) ht a hat hqa

theorem elim_inner_fixed (w : SState) (b : Cell) (d : Char) (hd : w.values.get b = [d]) :
    ∀ (P : List Cell), (∀ p ∈ P, d ∉ w.values.get p) →
      P.foldl (fun σ2 p => assign_value σ2 p (strReplace (σ2.values.get p) (w.values.get b))) w
        = w := by
  intro P
  induction P with
  | nil => intro _; rfl
  | cons p t ih =>
    intro hP
    simp only [List.foldl_cons]
    have hno : assign_value w p (strReplace (w.values.get p) (w.values.get b)) = w := by
      rw [hd, strReplace_single]
      have hfix : (w.values.get p).filter (fun ch => decide (ch ≠ d)) = w.values.get p := by
        apply List.filter_eq_self.mpr
        intro ch hch
        apply decide_eq_true
        intro he
        subst he
        exact hP p (List.mem_cons_self _ _) hch
      rw [hfix]
      exact assign_value_of_eq rfl
    rw [hno]
    exact ih (fun x hx => hP x (List.mem_cons_of_mem _ hx))

/-- When no solved box's digit remains in any of its peers, `eliminate` is
the identity (including the trace: every `assign_value` short-circuits). -/
theorem eliminate_fixed_of_nopeer (w : SState)
    (h : ∀ b p : Cell, (w.values.get b).length = 1 → p ∈ _peers b →
      ∀ ch ∈ w.values.get b, ch ∉ w.values.get p) :
    eliminate w = w := by
  rw [eliminate_eq]
  have hLmem : ∀ b ∈ _boxes.filter (fun b => decide ((w.values.get b).length = 1)),
      (w.values.get b).length = 1 := by
    intro b hb
    have hdec := List.of_mem_filter hb
    exact of_decide_eq_true hdec
  generalize _boxes.filter (fun b => decide ((w.values.get b).length = 1)) = L at hLmem
  induction L with
  | nil => rfl
  | cons b t ih =>
    simp only [List.foldl_cons]
    have hstep : elimBox w b = w := by
      rcases List.length_eq_one.mp (hLmem b (List.mem_cons_self _ _)) with ⟨d, hd⟩
      show (_peers b).foldl
        (fun σ2 p => assign_value σ2 p (strReplace (σ2.values.get p) (w.values.get b))) w = w
      exact elim_inner_fixed w b d hd (_peers b)
        (fun p hp hmem => h b p (hLmem b (List.mem_cons_self _ _)) hp d
          (by rw [hd]; exact List.mem_singleton.mpr rfl) hmem)
    rw [hstep]
    exact ih (fun x hx => hLmem x (List.mem_cons_of_mem _ hx))

/-- In a stalled, non-contradictory pass, every solved box's digit has been
removed from all its peers. -/
theorem reduce_output_nopeer (σp w : SState) (hw : w = reduceStep σp)
    (hcnt : solvedCount σp.values = solvedCount w.values)
    (hne : emptyCount w.values = 0) :
    ∀ b p : Cell, (w.values.get b).length = 1 → p ∈ _peers b →
      ∀ ch ∈ w.values.get b, ch ∉ w.values.get p := by
  intro b p hb hp ch hch hchp
  have hneP : ∀ bb : Cell, (w.values.get bb).length ≠ 0 := (emptyCount_eq_zero_iff _).mp hne
  have hshr : Shrinks w.values σp.values := by rw [hw]; exact reduceStep_shrinks σp
  have himp : ∀ a ∈ _boxes, decide ((σp.values.get a).length = 1) = true →
      decide ((w.values.get a).length = 1) = true := by
    intro a _ ha
    have h1 := of_decide_eq_true ha
    apply decide_eq_true
    rw [get_eq_of_solved hshr h1 (hneP a)]
    exact h1
  have hcnt2 : _boxes.countP (fun bb => decide ((σp.values.get bb).length = 1))
      = _boxes.countP (fun bb => decide ((w.values.get bb).length = 1)) := by
    rw [List.countP_eq_length_filter, List.countP_eq_length_filter]
    exact hcnt
  have hbσ : (σp.values.get b).length = 1 :=
    of_decide_eq_true (countP_eq_of_imp _boxes _ _ himp hcnt2 b (mem_boxes b) (decide_eq_true hb))
  have hwb : w.values.get b = σp.values.get b := get_eq_of_solved hshr hbσ (hneP b)
  rcases eliminate_conflict σp b p hbσ hp with ⟨c, hc⟩ | hnot
  · have hsub : w.values.get c <+ (eliminate σp).values.get c := by
      rw [hw]; exact reduceStep_shrinks_elim σp c
    rw [hc] at hsub
    exact hneP c (by rw [List.sublist_nil.mp hsub]; rfl)
  · have hchσ : ch ∈ σp.values.get b := by rw [← hwb]; exact hch
    have hsub : w.values.get p <+ (eliminate σp).values.get p := by
      rw [hw]; exact reduceStep_shrinks_elim σp p
    exact hnot ch hchσ (hsub.subset hchp)

/-! ### The naked-twins single-unit step on a clean twin pair -/

theorem unitlist_nodup_len : ∀ u ∈ _unitlist, u.Nodup ∧ u.length = 9 := by decide

/-- A duplicate-free list whose members are exactly two given elements is
one of the two orderings of the pair. -/
theorem nodup_pair_list {α : Type} [DecidableEq α] (l : List α) (a b : α)
    (hnd : l.Nodup) (hab : a ≠ b) (ha : a ∈ l) (hb : b ∈ l)
    (honly : ∀ x ∈ l, x = a ∨ x = b) : l = [a, b] ∨ l = [b, a] := by
  match l with
  | [] => cases ha
  | [x] =>
    rcases List.mem_singleton.mp ha with rfl
    rcases List.mem_singleton.mp hb with heq
    exact absurd heq.symm hab
  | x :: y :: t =>
    have hx := honly x (List.mem_cons_self _ _)
    have hy := honly y (List.mem_cons_of_mem _ (List.mem_cons_self _ _))
    have hxy : x ≠ y := by
      intro he
      exact (List.nodup_cons.mp hnd).1 (he ▸ List.mem_cons_self _ _)
    have ht : t = [] := by
      match t with
      | [] => rfl
      | z :: t2 =>
        have hz := honly z (List.mem_cons_of_mem _ (List.mem_cons_of_mem _ (List.mem_cons_self _ _)))
        have hxz : x ≠ z := by
          intro he
          exact (List.nodup_cons.mp hnd).1 (he ▸ List.mem_cons_of_mem _ (List.mem_cons_self _ _))
        have hyz : y ≠ z := by
          intro he
          exact (List.nodup_cons.mp (List.nodup_cons.mp hnd).2).1 (he ▸ List.mem_cons_self _ _)
        rcases hx with rfl | rfl <;> rcases hy with rfl | rfl <;> rcases hz with rfl | rfl <;>
          first
          | exact absurd rfl hxy
          | exact absurd rfl hxz
          | exact absurd rfl hyz
    subst ht
    rcases hx with rfl | rfl <;> rcases hy with rfl | rfl
    · exact absurd rfl hxy
    · exact Or.inl rfl
    · exact Or.inr rfl
    · exact absurd rfl hxy

/-- The naked-twins step of a single unit, when the unit's only two-candidate
boxes are an identical twin pair: the pair is untouched and every other box
of the unit loses exactly the twins' two digits. -/
theorem naked_twins_unit_clean (σ : SState) (u : List Cell) (t1 t2 : Cell)
    (hu : u.Nodup) (ht12 : t1 ≠ t2) (ht1 : t1 ∈ u) (ht2 : t2 ∈ u)
    (hlen : (σ.values.get t1).length = 2)
    (heq : σ.values.get t1 = σ.values.get t2)
    (honly : ∀ c ∈ u, (σ.values.get c).length = 2 → c = t1 ∨ c = t2) :
    ((naked_twins_unit σ u).values.get t1 = σ.values.get t1 ∧
     (naked_twins_unit σ u).values.get t2 = σ.values.get t2) ∧
    ∀ c ∈ u, c ≠ t1 → c ≠ t2 →
      (naked_twins_unit σ u).values.get c
        = (σ.values.get c).filter (fun ch => decide (ch ∉ σ.values.get t1)) := by
  have hlen2 : (σ.values.get t2).length = 2 := by rw [← heq]; exact hlen
  have htb : u.filter (fun b => decide ((σ.values.get b).length = 2)) = [t1, t2] ∨
      u.filter (fun b => decide ((σ.values.get b).length = 2)) = [t2, t1] := by
    apply nodup_pair_list _ t1 t2 (List.Nodup.filter _ hu) ht12
    · exact List.mem_filter.mpr ⟨ht1, decide_eq_true hlen⟩
    · exact List.mem_filter.mpr ⟨ht2, decide_eq_true hlen2⟩
    · intro x hx
      have hxu := List.mem_of_mem_filter hx
      have hdec := List.of_mem_filter hx
      exact honly x hxu (of_decide_eq_true hdec)
  have main : ∀ a b : Cell, a ≠ b → a ∈ u → b ∈ u →
      σ.values.get a = σ.values.get b →
      u.filter (fun bb => decide ((σ.values.get bb).length = 2)) = [a, b] →
      ((naked_twins_unit σ u).values.get a = σ.values.get a ∧
       (naked_twins_unit σ u).values.get b = σ.values.get b) ∧
      ∀ c ∈ u, c ≠ a → c ≠ b →
        (naked_twins_unit σ u).values.get c
          = (σ.values.get c).filter (fun ch => decide (ch ∉ σ.values.get a)) := by
    intro a b hab ha hb hvab htbab
    have hcol : collectTwins σ.values [a, b] = [(σ.values.get a, (a, b))] := by
      simp [collectTwins, pairsOf, upsertPair, hvab]
    have hnt : naked_twins_unit σ u
        = (u.filter (fun bb => decide (bb ≠ a ∧ bb ≠ b))).foldl
            (fun σ2 p =>
              assign_value σ2 p
                ((σ2.values.get p).filter (fun ch => decide (ch ∉ σ.values.get a)))) σ := by
      unfold naked_twins_unit
      rw [htbab, hcol, List.foldl_cons, List.foldl_nil]
    have hothers_nodup : (u.filter (fun bb => decide (bb ≠ a ∧ bb ≠ b))).Nodup :=
      List.Nodup.filter _ hu
    constructor
    · constructor
      · rw [hnt]
        apply foldl_assign_get_of_not_mem
        intro hmem
        have hdec := List.of_mem_filter hmem
        exact (of_decide_eq_true hdec).1 rfl
      · rw [hnt]
        apply foldl_assign_get_of_not_mem
        intro hmem
        have hdec := List.of_mem_filter hmem
        exact (of_decide_eq_true hdec).2 rfl
    · intro c hc hca hcb
      rw [hnt]
      exact foldl_assign_get_of_mem _ _ hothers_nodup
        (List.mem_filter.mpr ⟨hc, decide_eq_true ⟨hca, hcb⟩⟩) σ
  rcases htb with htbab | htbab
  · exact main t1 t2 ht12 ht1 ht2 heq htbab
  · obtain ⟨⟨h2, h1⟩, hrest⟩ := main t2 t1 (Ne.symm ht12) ht2 ht1 heq.symm htbab
    refine ⟨⟨h1, h2⟩, ?_⟩
    intro c hc hc1 hc2
    rw [hrest c hc hc2 hc1, heq]

/-! ### Concrete boards used by witnesses and counterexamples -/

def cA1 : Cell := ⟨0, by omega⟩
def cA2 : Cell := ⟨1, by omega⟩
def cA5 : Cell := ⟨4, by omega⟩
def cB1 : Cell := ⟨9, by omega⟩
def cE1 : Cell := ⟨36, by omega⟩

/-- The board in which every box still holds all nine candidates. -/
def allNineBoard : Board := ⟨List.replicate 81 digitsL, by rfl⟩

def allNineState : SState := { values := allNineBoard, assignments := [] }

/-- A fully solved diagonal Sudoku (all 29 units are permutations of 1-9). -/
def solvedGrid : List Char :=
  "123456789456789123789123456214365897368972514597814632941638275832547961675291348".toList

def solvedBoard : Board := ⟨gridChars solvedGrid, by rfl⟩

def solvedState : SState := { values := solvedBoard, assignments := [] }

def rowAUnit : List Cell :=
  [⟨0, by omega⟩, ⟨1, by omega⟩, ⟨2, by omega⟩, ⟨3, by omega⟩, ⟨4, by omega⟩,
   ⟨5, by omega⟩, ⟨6, by omega⟩, ⟨7, by omega⟩, ⟨8, by omega⟩]

def col1Unit : List Cell :=
  [⟨0, by omega⟩, ⟨9, by omega⟩, ⟨18, by omega⟩, ⟨27, by omega⟩, ⟨36, by omega⟩,
   ⟨45, by omega⟩, ⟨54, by omega⟩, ⟨63, by omega⟩, ⟨72, by omega⟩]

/-! ### Shallow no-op checks: evaluating one pass on concrete boards without
deep accumulator chains -/

/-- Decidable check that `eliminate` would change nothing: no solved box's
digit survives in any of its peers. -/
def elimNoop (σ : SState) : Bool :=
  _boxes.all (fun b =>
    !(decide ((σ.values.get b).length = 1)) ||
      (_peers b).all (fun p => (σ.values.get b).all (fun ch => decide (ch ∉ σ.values.get p))))

theorem eliminate_fixed_of_noop (σ : SState) (h : elimNoop σ = true) : eliminate σ = σ := by
  apply eliminate_fixed_of_nopeer
  intro b p hb hp ch hch
  have hb1 := (List.all_eq_true.mp h) b (mem_boxes b)
  rw [Bool.or_eq_true] at hb1
  rcases hb1 with h1 | h1
  · rw [Bool.not_eq_true'] at h1
    exact absurd hb (of_decide_eq_false h1)
  · have h2 := (List.all_eq_true.mp h1) p hp
    have h3 := (List.all_eq_true.mp h2) ch hch
    exact of_decide_eq_true h3

/-- Decidable check that no unit has two or more two-candidate boxes, making
`naked_twins` a no-op. -/
def nakedNoop (σ : SState) : Bool :=
  _unitlist.all (fun u =>
    decide ((u.filter (fun b => decide ((σ.values.get b).length = 2))).length ≤ 1))

theorem naked_twins_unit_noop (σ : SState) (u : List Cell)
    (h : (u.filter (fun b => decide ((σ.values.get b).length = 2))).length ≤ 1) :
    naked_twins_unit σ u = σ := by
  unfold naked_twins_unit
  rcases hf : u.filter (fun b => decide ((σ.values.get b).length = 2)) with - | ⟨t, rest⟩
  · rfl
  · rcases rest with - | ⟨t2, rest2⟩
    · rfl
    · rw [hf] at h; simp at h

theorem naked_twins_fixed (σ : SState) (h : nakedNoop σ = true) : naked_twins σ = σ := by
  unfold naked_twins
  have hall := List.all_eq_true.mp h
  have hgen : ∀ (L : List (List Cell)), (∀ u ∈ L, u ∈ _unitlist) →
      L.foldl naked_twins_unit σ = σ := by
    intro L
    induction L with
    | nil => intro _; rfl
    | cons u t ih =>
      intro hL
      simp only [List.foldl_cons]
      rw [naked_twins_unit_noop σ u
        (of_decide_eq_true (hall u (hL u (List.mem_cons_self _ _))))]
      exact ih (fun x hx => hL x (List.mem_cons_of_mem _ hx))
  exact hgen _unitlist (fun u hu => hu)

/-- Decidable check that `only_choice` would change nothing: every
singleton `dplaces` already holds exactly its digit. -/
def onlyNoop (σ : SState) : Bool :=
  _unitlist.all (fun u => digitsL.all (fun d =>
    match u.filter (fun bb => decide (d ∈ σ.values.get bb)) with
    | [b] => decide (σ.values.get b = [d])
    | _ => true))

theorem only_choice_digits_fixed (σ : SState) (u : List Cell)
    (h : ∀ d ∈ digitsL, ∀ b : Cell,
      u.filter (fun bb => decide (d ∈ σ.values.get bb)) = [b] → σ.values.get b = [d]) :
    ∀ (D : List Char), (∀ d ∈ D, d ∈ digitsL) →
      D.foldl
        (fun σ1 d =>
          match u.filter (fun bb => decide (d ∈ σ1.values.get bb)) with
          | [b] => assign_value σ1 b [d]
          | _ => σ1) σ = σ := by
  intro D
  induction D with
  | nil => intro _; rfl
  | cons d t ih =>
    intro hD
    simp only [List.foldl_cons]
    have hstep : (match u.filter (fun bb => decide (d ∈ σ.values.get bb)) with
        | [b] => assign_value σ b [d]
        | _ => σ) = σ := by
      rcases hf : u.filter (fun bb => decide (d ∈ σ.values.get bb)) with - | ⟨b, rest⟩
      · rfl
      · rcases rest with - | ⟨b2, rest2⟩
        · exact assign_value_of_eq (h d (hD d (List.mem_cons_self _ _)) b hf)
        · rfl
    rw [hstep]
    exact ih (fun x hx => hD x (List.mem_cons_of_mem _ hx))

theorem only_choice_fixed (σ : SState) (h : onlyNoop σ = true) : only_choice σ = σ := by
  unfold only_choice
  have hunit : ∀ u ∈ _unitlist, ∀ d ∈ digitsL, ∀ b : Cell,
      u.filter (fun bb => decide (d ∈ σ.values.get bb)) = [b] → σ.values.get b = [d] := by
    intro u hu d hd b hf
    have h1 := (List.all_eq_true.mp h) u hu
    have h2 := (List.all_eq_true.mp h1) d hd
    rw [hf] at h2
    exact of_decide_eq_true h2
  have hgen : ∀ (L : List (List Cell)), (∀ u ∈ L, u ∈ _unitlist) →
      L.foldl (fun σu u => digitsL.foldl (fun σ1 d =>
        match u.filter (fun bb => decide (d ∈ σ1.values.get bb)) with
        | [b] => assign_value σ1 b [d]
        | _ => σ1) σu) σ = σ := by
    intro L
    induction L with
    | nil => intro _; rfl
    | cons u t ih =>
      intro hL
      simp only [List.foldl_cons]
      rw [only_choice_digits_fixed σ u (hunit u (hL u (List.mem_cons_self _ _)))
        digitsL (fun d hd => hd)]
      exact ih (fun x hx => hL x (List.mem_cons_of_mem _ hx))
  exact hgen _unitlist (fun u hu => hu)

theorem reduceStep_fixed (σ : SState) (he : elimNoop σ = true) (hn : nakedNoop σ = true)
    (ho : onlyNoop σ = true) : reduceStep σ = σ := by
  unfold reduceStep
  rw [eliminate_fixed_of_noop σ he, naked_twins_fixed σ hn, only_choice_fixed σ ho]

/-- A pass that is checked (shallowly) to produce `w` from `σ` with no
empty box and an unchanged solved count makes `reduce_puzzle` stop at `w`. -/
theorem reduce_one_pass (σ w : SState) (hstep : reduceStep σ = w)
    (hne : emptyCount w.values = 0) (hcnt : solvedCount σ.values = solvedCount w.values) :
    reduce_puzzle σ = some w := by
  unfold reduce_puzzle
  show reduceFuel (81 + 1) σ = some w
  rw [reduceFuel_succ, hstep, if_neg (by simp [hne]), if_pos hcnt]

theorem search_fixed (σ : SState) (hred : reduce_puzzle σ = some σ)
    (hall : allSolvedB σ.values = true) : search σ = some σ := by
  unfold search
  rw [searchFuel_succ]
  unfold searchBody
  rw [hred]
  dsimp only
  rw [if_pos hall]

theorem solve_eq_search (grid : List Char) (v : Board) (h : grid_values grid = some v) :
    solve grid = search { values := v, assignments := [] } := by
  unfold solve
  rw [h]

/-! ### More concrete boards for the corrected claims -/

/-- C4 counterexample input: twin pairs (D1,E1)="14" in column 1 / square 4,
plus A1="123", A5="23"; the naked-twins eliminations of the first pass
change no solved count, so the loop stalls though A1 and A5 have become an
unprocessed twin pair of row A. -/
def c4Board : Board :=
  (((allNineBoard.set ⟨0, by omega⟩ "123".toList).set ⟨4, by omega⟩ "23".toList).set
      ⟨27, by omega⟩ "14".toList).set ⟨36, by omega⟩ "14".toList

def c4State : SState := { values := c4Board, assignments := [] }

/-- The board returned by `reduce_puzzle c4State` (checked by evaluation). -/
def c4Reduced : Board :=
  ((((((((((((c4Board.set ⟨0, by omega⟩ "23".toList).set ⟨9, by omega⟩ "2356789".toList).set
      ⟨18, by omega⟩ "2356789".toList).set ⟨28, by omega⟩ "2356789".toList).set
      ⟨29, by omega⟩ "2356789".toList).set ⟨37, by omega⟩ "2356789".toList).set
      ⟨38, by omega⟩ "2356789".toList).set ⟨45, by omega⟩ "2356789".toList).set
      ⟨46, by omega⟩ "2356789".toList).set ⟨47, by omega⟩ "2356789".toList).set
      ⟨54, by omega⟩ "2356789".toList).set ⟨63, by omega⟩ "2356789".toList).set
      ⟨72, by omega⟩ "2356789".toList

def c4ReducedState : SState := { values := c4Reduced, assignments := [] }

/-- The board returned by running `reduce_puzzle` a second time, on
`c4ReducedState`: the row-A twins (A1, A5) now fire and prune row A. -/
def c4Reduced2 : Board :=
  ((((((c4Reduced.set ⟨1, by omega⟩ "1456789".toList).set ⟨2, by omega⟩ "1456789".toList).set
      ⟨3, by omega⟩ "1456789".toList).set ⟨5, by omega⟩ "1456789".toList).set
      ⟨6, by omega⟩ "1456789".toList).set ⟨7, by omega⟩ "1456789".toList).set
      ⟨8, by omega⟩ "1456789".toList

def c4Reduced2State : SState := { values := c4Reduced2, assignments := [] }

/-- C5 counterexample input: (A1,E1)="23" are the only length-2 boxes of
column 1, but the row-A pair (A3,A4)="13" is processed first and strips
A1 to "2", so column 1's twins are never applied. -/
def c5Board : Board :=
  (((allNineBoard.set ⟨0, by omega⟩ "23".toList).set ⟨2, by omega⟩ "13".toList).set
      ⟨3, by omega⟩ "13".toList).set ⟨36, by omega⟩ "23".toList

def c5State : SState := { values := c5Board, assignments := [] }

/-- C5 amended-claim witness input: (A1,A5)="23" are the only length-2
boxes of the whole board. -/
def c5wBoard : Board :=
  (allNineBoard.set ⟨0, by omega⟩ "23".toList).set ⟨4, by omega⟩ "23".toList

def c5wState : SState := { values := c5wBoard, assignments := [] }

theorem peers_of_unit (u : List Cell) (hu : u ∈ _unitlist) (x y : Cell)
    (hx : x ∈ u) (hy : y ∈ u) (hxy : y ≠ x) : y ∈ _peers x := by
  unfold _peers
  rw [List.mem_dedup]
  apply List.mem_filter.mpr
  refine ⟨?_, decide_eq_true hxy⟩
  rw [List.mem_flatten]
  exact ⟨u, List.mem_filter.mpr ⟨hu, decide_eq_true hx⟩, hy⟩

/-! ### The claims -/

/-- C1: for every input board over digit substrings, if `search` returns a
solved board (every box's candidate string of length 1), then for every
unit in the active unit list the multiset of the 9 box values is exactly
the nine digit singletons, each once. -/
theorem c1_search_solved_units_valid (σ w : SState)
    (hdig : ∀ c : Cell, σ.values.get c <+ digitsL)
    (hw : search σ = some w)
    (hsol : ∀ c : Cell, (w.values.get c).length = 1) :
    ∀ u ∈ _unitlist, (u.map (fun c => w.values.get c)).Perm (digitsL.map (fun d => [d])) := by
  obtain ⟨hall, hshr, hpd⟩ := searchFuel_valid _ _ _ hw
  intro u hu
  obtain ⟨hnd, hlen9⟩ := unitlist_nodup_len u hu
  have hmapnd : (u.map (fun c => w.values.get c)).Nodup := by
    refine List.Nodup.map_on ?_ hnd
    intro x hx y hy hxy
    by_contra hne
    exact hpd x y (peers_of_unit u hu x y hx hy (fun he => hne he.symm)) hxy
  have hsubset : (u.map (fun c => w.values.get c)) ⊆ digitsL.map (fun d => [d]) := by
    intro l hl
    rw [List.mem_map] at hl
    obtain ⟨c, hcu, rfl⟩ := hl
    rcases List.length_eq_one.mp (hsol c) with ⟨d, hd⟩
    rw [hd, List.mem_map]
    refine ⟨d, ?_, rfl⟩
    have hsub : w.values.get c <+ digitsL := (hshr c).trans (hdig c)
    rw [hd] at hsub
    exact List.singleton_sublist.mp hsub
  have hsp : (u.map (fun c => w.values.get c)) <+~ digitsL.map (fun d => [d]) :=
    List.subperm_of_subset hmapnd hsubset
  apply hsp.perm_of_length_le
  rw [List.length_map, List.length_map, hlen9]
  decide

/-- C1 witness: on the already-solved diagonal board, `search` succeeds and
row A's values are a permutation of the digit singletons. -/
theorem c1_witness :
    (rowAUnit.map (fun c => solvedState.values.get c)).Perm (digitsL.map (fun d => [d])) := by
  have hred : reduce_puzzle solvedState = some solvedState :=
    reduce_one_pass _ _
      (reduceStep_fixed _ (by decide) (by decide) (by decide)) (by decide) rfl
  exact c1_search_solved_units_valid solvedState solvedState (by decide)
    (search_fixed _ hred (by decide)) (by decide) rowAUnit (by decide)

/-- C2: a board with an empty candidate string is reported as failed by the
reduction loop (the empty-box check after the first full pass fires, since
no technique can repopulate an empty string). -/
theorem c2_reduce_fails_on_empty (σ : SState) (c : Cell) (h : σ.values.get c = []) :
    reduce_puzzle σ = none := by
  have hempty : (reduceStep σ).values.get c = [] := by
    have hs := reduceStep_shrinks σ c
    rw [h] at hs
    exact List.sublist_nil.mp hs
  have hcount : emptyCount (reduceStep σ).values ≠ 0 := by
    intro h0
    exact ((emptyCount_eq_zero_iff _).mp h0 c) (by rw [hempty]; rfl)
  unfold reduce_puzzle
  show reduceFuel (81 + 1) σ = none
  rw [reduceFuel_succ, if_pos hcount]

/-- C2 witness: the all-candidates board with A1 emptied fails to reduce. -/
theorem c2_witness : reduce_puzzle { values := allNineBoard.set cA1 [], assignments := [] }
    = none :=
  c2_reduce_fails_on_empty { values := allNineBoard.set cA1 [], assignments := [] } cA1
    (by decide)

/-- C3: a box given as a digit in the grid keeps exactly that digit in any
successful `solve` result. -/
theorem c3_solve_preserves_givens (grid : List Char) (v : Board) (w : SState) (i : Cell)
    (d : Char) (hv : grid_values grid = some v) (hgiven : v.get i = [d])
    (hw : solve grid = some w) : w.values.get i = [d] := by
  rw [solve_eq_search grid v hv] at hw
  obtain ⟨hall, hshr, -⟩ := searchFuel_valid _ _ _ hw
  have hsub : w.values.get i <+ [d] := by
    have hs := hshr i
    rwa [show ({ values := v, assignments := [] } : SState).values = v from rfl, hgiven] at hs
  rcases List.sublist_singleton.mp hsub with he | he
  · have h1 := hall i
    rw [he] at h1
    simp at h1
  · exact he

/-- C3 witness: solving the solved grid keeps A1's given digit 1. -/
theorem c3_witness : solvedState.values.get cA1 = ['1'] := by
  have hred : reduce_puzzle solvedState = some solvedState :=
    reduce_one_pass _ _
      (reduceStep_fixed _ (by decide) (by decide) (by decide)) (by decide) rfl
  have hw : solve solvedGrid = some solvedState := by
    rw [solve_eq_search solvedGrid solvedBoard (by decide)]
    exact search_fixed _ hred (by decide)
  exact c3_solve_preserves_givens solvedGrid solvedBoard solvedState cA1 '1'
    (by decide) (by decide) hw

/-- C4 counterexample: `reduce_puzzle` succeeds on `c4State`, yet running it
again on its own output changes the board (the stall test only compares
solved-box counts, missing the row-A twins created during the final pass). -/
theorem c4_counterexample :
    reduce_puzzle c4State = some c4ReducedState ∧
      reduce_puzzle c4ReducedState ≠ some c4ReducedState := by
  constructor
  · refine reduce_one_pass _ _ ?_ (by decide) (by decide)
    unfold reduceStep
    rw [eliminate_fixed_of_noop _ (by decide),
      show naked_twins c4State = c4ReducedState from by decide,
      only_choice_fixed _ (by decide)]
  · have h2 : reduce_puzzle c4ReducedState = some c4Reduced2State := by
      refine reduce_one_pass _ _ ?_ (by decide) (by decide)
      unfold reduceStep
      rw [eliminate_fixed_of_noop _ (by decide),
        show naked_twins c4ReducedState = c4Reduced2State from by decide,
        only_choice_fixed _ (by decide)]
    rw [h2]
    decide

/-- C4 amended: the reduction loop's successful output is a fixed point of
the elimination technique (every solved box's digit is gone from all its
peers), though not necessarily of the full pass: naked-twins/only-choice
may still act, because the stall test only counts solved boxes. -/
theorem c4_reduce_output_eliminate_fixed (σ w : SState) (h : reduce_puzzle σ = some w) :
    eliminate w = w := by
  obtain ⟨σp, hw, hcnt, hne⟩ := reduceFuel_stalled 82 σ w h
  exact eliminate_fixed_of_nopeer w (reduce_output_nopeer σp w hw hcnt hne)

/-- C4 witness: the all-candidates board reduces to itself, and eliminate
leaves that output untouched. -/
theorem c4_witness : eliminate allNineState = allNineState := by
  have hred : reduce_puzzle allNineState = some allNineState :=
    reduce_one_pass _ _
      (reduceStep_fixed _ (by decide) (by decide) (by decide)) (by decide) rfl
  exact c4_reduce_output_eliminate_fixed allNineState allNineState hred

theorem reduce_allNine_eq : reduce_puzzle allNineState = some allNineState :=
  reduce_one_pass _ _
    (reduceStep_fixed _ (by decide) (by decide) (by decide)) (by decide) rfl

/-- C5 counterexample: in `c5Board`, column 1 contains exactly two distinct
boxes with identical length-2 candidate strings (A1 and E1, both "23"), yet
after one `naked_twins` pass the twin A1 has changed (the row-A pair
(A3,A4)="13" is processed first and strips A1 to "2") and digit '2' still
sits in another box of that unit (B1): both halves of the claimed
conclusion fail. -/
theorem c5_counterexample :
    col1Unit ∈ _unitlist ∧ cA1 ∈ col1Unit ∧ cE1 ∈ col1Unit ∧ cA1 ≠ cE1 ∧
    c5State.values.get cA1 = c5State.values.get cE1 ∧
    (c5State.values.get cA1).length = 2 ∧
    (∀ c ∈ col1Unit, (c5State.values.get c).length = 2 → c = cA1 ∨ c = cE1) ∧
    (naked_twins c5State).values.get cA1 ≠ c5State.values.get cA1 ∧
    '2' ∈ (naked_twins c5State).values.get cB1 := by decide

/-- C5 amended: restricted to the naked-twins processing of that single unit
(one iteration of the outer loop) and to the case where the two twin boxes
are the only length-2 boxes of the unit, the claim holds: both twin digits
are removed from every other box of the unit and the twin boxes are
unchanged.  (The full pass can break both conclusions: another unit — or
another pair in the same unit — may strip a twin first, as the
counterexample shows.) -/
theorem c5_naked_twins_unit_pair (σ : SState) (u : List Cell) (t1 t2 : Cell)
    (hu : u ∈ _unitlist) (ht12 : t1 ≠ t2) (ht1 : t1 ∈ u) (ht2 : t2 ∈ u)
    (hlen : (σ.values.get t1).length = 2)
    (heq : σ.values.get t1 = σ.values.get t2)
    (honly : ∀ c ∈ u, (σ.values.get c).length = 2 → c = t1 ∨ c = t2) :
    ((naked_twins_unit σ u).values.get t1 = σ.values.get t1 ∧
     (naked_twins_unit σ u).values.get t2 = σ.values.get t2) ∧
    ∀ c ∈ u, c ≠ t1 → c ≠ t2 → ∀ d ∈ σ.values.get t1,
      d ∉ (naked_twins_unit σ u).values.get c := by
  obtain ⟨hpair, hrest⟩ := naked_twins_unit_clean σ u t1 t2 (unitlist_nodup_len u hu).1
    ht12 ht1 ht2 hlen heq honly
  refine ⟨hpair, ?_⟩
  intro c hc hc1 hc2 d hd hdmem
  rw [hrest c hc hc1 hc2] at hdmem
  have hf := List.of_mem_filter hdmem
  exact (of_decide_eq_true hf) hd

/-- C5 witness: with (A1,A5)="23" the only length-2 boxes, processing row A
alone keeps the twins and removes '2' from A2. -/
theorem c5_witness :
    (naked_twins_unit c5wState rowAUnit).values.get cA1 = c5wState.values.get cA1 ∧
    '2' ∉ (naked_twins_unit c5wState rowAUnit).values.get cA2 := by
  have h := c5_naked_twins_unit_pair c5wState rowAUnit cA1 cA5 (by decide) (by decide)
    (by decide) (by decide) (by decide) (by decide) (by decide)
  exact ⟨h.1.1, h.2 cA2 (by decide) (by decide) (by decide) '2' (by decide)⟩

/-- C6: termination of `search`: a guess strictly decreases the total
candidate count relative to the caller (the reduction pass never grows any
string, and the guess fixes a multi-candidate box), the total is bounded
below by 81 on boards without empty strings, and beyond fuel `totalLen`
the fueled search's result no longer depends on the fuel. -/
theorem c6_search_termination :
    (∀ (σ σ2 : SState) (s : Cell) (c : Char), reduce_puzzle σ = some σ2 →
        1 < (σ2.values.get s).length → c ∈ σ2.values.get s →
        totalLen (searchBranch σ2 s c).values < totalLen σ.values) ∧
    (∀ (σ : SState) (c : Cell), (reduceStep σ).values.get c <+ σ.values.get c) ∧
    (∀ v : Board, (∀ b : Cell, v.get b ≠ []) → 81 ≤ totalLen v) ∧
    (∀ (n m : Nat) (σ : SState), totalLen σ.values < n → totalLen σ.values < m →
        searchFuel n σ = searchFuel m σ) := by
  refine ⟨?_, fun σ c => reduceStep_shrinks σ c, totalLen_ge_81, searchFuel_stable⟩
  intro σ σ2 s c hred hs _
  have h1 : totalLen (searchBranch σ2 s c).values < totalLen σ2.values :=
    totalLen_branch_lt hs c
  have h2 : totalLen σ2.values ≤ totalLen σ.values :=
    totalLen_le_of_shrinks (reduce_puzzle_shrinks _ _ hred)
  omega

/-- C6 witness: concrete instances of all four termination facts on the
all-candidates board. -/
theorem c6_witness :
    totalLen (searchBranch allNineState cA1 '1').values < totalLen allNineState.values ∧
    (reduceStep allNineState).values.get cA1 <+ allNineState.values.get cA1 ∧
    81 ≤ totalLen allNineBoard ∧
    searchFuel 730 allNineState = searchFuel 731 allNineState :=
  ⟨c6_search_termination.1 allNineState allNineState cA1 '1' reduce_allNine_eq
      (by decide) (by decide),
    c6_search_termination.2.1 allNineState cA1,
    c6_search_termination.2.2.1 allNineBoard (by decide),
    c6_search_termination.2.2.2 730 731 allNineState (by decide) (by decide)⟩

/-- C7: assigning a box its current value leaves every box's candidate
string unchanged and appends nothing to the assignment trace. -/
theorem c7_assign_value_noop (σ : SState) (box : Cell) (value : List Char)
    (h : σ.values.get box = value) :
    (∀ c : Cell, (assign_value σ box value).values.get c = σ.values.get c) ∧
    (assign_value σ box value).assignments = σ.assignments := by
  rw [assign_value_of_eq h]
  exact ⟨fun _ => rfl, rfl⟩

/-- C7 witness: re-assigning A1 its full candidate string is a no-op. -/
theorem c7_witness :
    (∀ c : Cell, (assign_value allNineState cA1 digitsL).values.get c
        = allNineState.values.get c) ∧
    (assign_value allNineState cA1 digitsL).assignments = allNineState.assignments :=
  c7_assign_value_noop allNineState cA1 digitsL (by decide)

/-- C8 counterexample: the unit list does not have 20 units with diagonals
enabled, nor 18 without. -/
theorem c8_counterexample :
    (unitlistOf true).length ≠ 20 ∧ (unitlistOf false).length ≠ 18 := by decide

/-- C8 amended: the unit list has 29 units with diagonal mode enabled
(9 rows + 9 columns + 9 boxes + 2 diagonals) and 27 with it disabled; the
module's flag is set, so the active list has 29. -/
theorem c8_unitlist_lengths :
    (unitlistOf true).length = 29 ∧ (unitlistOf false).length = 27 ∧
      IS_DIAGONAL = true ∧ _unitlist.length = 29 := by decide

/-- C9 counterexample: the branch point of `search` writes the guessed digit
directly into the copied board — the box changes to a single-character value
different from its prior value, yet nothing is appended to the assignment
trace (while the same change through `assign_value` would append). -/
theorem c9_counterexample :
    (searchBranch allNineState cA1 '1').values.get cA1 = ['1'] ∧
    ((searchBranch allNineState cA1 '1').values.get cA1).length = 1 ∧
    allNineState.values.get cA1 ≠ ['1'] ∧
    (searchBranch allNineState cA1 '1').assignments = [] ∧
    (assign_value allNineState cA1 ['1']).assignments ≠ [] := by decide

/-- C9 amended: the propagation techniques mutate only through
`assign_value`, which appends a full snapshot exactly when the new value is
single-character and differs from the prior value; the guessed digit at a
search branch point, in contrast, is written directly into the copied board
and appends no snapshot. -/
theorem c9_trace_behaviour :
    (∀ (σ : SState) (s : Cell) (c : Char),
      (searchBranch σ s c).assignments = σ.assignments ∧
      (searchBranch σ s c).values = σ.values.set s [c]) ∧
    (∀ (σ : SState) (b : Cell) (v : List Char), σ.values.get b ≠ v → v.length = 1 →
      (assign_value σ b v).assignments = σ.assignments ++ [σ.values.set b v]) ∧
    (∀ (σ : SState) (b : Cell) (v : List Char), σ.values.get b ≠ v → v.length ≠ 1 →
      (assign_value σ b v).assignments = σ.assignments) := by
  refine ⟨fun σ s c => ⟨rfl, rfl⟩, ?_, ?_⟩
  · intro σ b v hne h1
    simp [assign_value, hne, h1]
  · intro σ b v hne h1
    simp [assign_value, hne, h1]

/-- C9 witness: concrete instances — a guess appends nothing, the same
change through `assign_value` appends the snapshot. -/
theorem c9_witness :
    ((searchBranch allNineState cA1 '1').assignments = allNineState.assignments ∧
      (searchBranch allNineState cA1 '1').values = allNineState.values.set cA1 ['1']) ∧
    (assign_value allNineState cA1 ['1']).assignments
      = allNineState.assignments ++ [allNineState.values.set cA1 ['1']] :=
  ⟨c9_trace_behaviour.1 allNineState cA1 '1',
   c9_trace_behaviour.2.1 allNineState cA1 ['1'] (by decide) (by decide)⟩

/-- C10: each technique is monotone per box — the output candidate string is
a subsequence of the input one (candidates are removed, never added or
reordered) — so candidate strings that are duplicate-free increasing
subsequences of "123456789" stay so. -/
theorem c10_techniques_monotone (σ : SState) (c : Cell) :
    ((eliminate σ).values.get c <+ σ.values.get c ∧
     (naked_twins σ).values.get c <+ σ.values.get c ∧
     (only_choice σ).values.get c <+ σ.values.get c) ∧
    (σ.values.get c <+ digitsL →
      (eliminate σ).values.get c <+ digitsL ∧
      (naked_twins σ).values.get c <+ digitsL ∧
      (only_choice σ).values.get c <+ digitsL) := by
  refine ⟨⟨eliminate_shrinks σ c, naked_twins_shrinks σ c, only_choice_shrinks σ c⟩, ?_⟩
  intro hd
  exact ⟨(eliminate_shrinks σ c).trans hd, (naked_twins_shrinks σ c).trans hd,
    (only_choice_shrinks σ c).trans hd⟩

/-- C10 witness: on the solved board, all three techniques keep A1 inside
the digit string. -/
theorem c10_witness :
    (eliminate solvedState).values.get cA1 <+ digitsL ∧
    (naked_twins solvedState).values.get cA1 <+ digitsL ∧
    (only_choice solvedState).values.get cA1 <+ digitsL :=
  (c10_techniques_monotone solvedState cA1).2 (by decide)
